import Mathlib

/-!
Verification of `python_version.py`.

A shallow embedding of the two functions of the repository,
`half_life_mean_reversion` and `calculate_cointegration`, together with a
model of the module's name environment (the body of
`calculate_cointegration` references the globals `coint` and `sm`, which the
module never imports or defines, and the removed numpy alias `np.float`).

Numeric modelling: series are lists of rationals (the guards and the
regression arithmetic of the source are exact field arithmetic); the only
transcendental value, `np.log(2)`, is `Real.log 2`, so the half-life result
lives in `ℝ`.  The external statistical routines named by the source are
modelled as follows: `scipy.stats.linregress` by the least-squares slope
formula, `sm.OLS` (statsmodels, single regressor with a prepended constant
column) by the normal-equation solution, and the unbound `coint` test as an
opaque parameter producing a test statistic, a p-value and a 3-element
critical-value table.
-/

/-- Error values a call can surface.  The source's `SmartError` carries only
a message string; `nameError` / `attributeError` model Python's own failures
on unresolved globals and missing module attributes, and `valueError` models
the numpy shape error raised when two series of different lengths are
combined elementwise. -/
inductive PyError where
  | smartError (msg : String)
  | nameError (name : String)
  | attributeError (attr : String)
  | valueError (msg : String)
deriving DecidableEq

/-- Message of the length guard, source line 9. -/
def invalidInputMsg : String := "Series length must be greater than 1."

/-- Message of the slope guard, source line 14. -/
def degenerateFitMsg : String := "Cannot calculate half life. Slope value is too close to zero."

/-- Message modelling numpy's broadcast failure on mismatched 1-D shapes. -/
def shapeMismatchMsg : String := "operands could not be broadcast together"

/-- The spec's `InvalidInput` error kind (spec section 7): the source's
`SmartError` whose message is the short-series message. -/
def InvalidInput : PyError := .smartError invalidInputMsg

/-- The spec's `DegenerateFit` error kind (spec section 7): the source's
`SmartError` whose message is the near-zero-slope message. -/
def DegenerateFit : PyError := .smartError degenerateFitMsg

/-- Machine epsilon for IEEE double precision, `np.finfo(float).eps`:
`2 ^ (-52)`, an exact rational. -/
def npEps : ℚ := 1 / 2 ^ 52

/-- Consecutive differences, `np.diff`, source line 10. -/
def npDiff : List ℚ → List ℚ
  | a :: b :: rest => (b - a) :: npDiff (b :: rest)
  | _ => []

/-- Arithmetic mean of a list (`0` for the empty list, by the `ℚ`
convention `q / 0 = 0`). -/
def mean (xs : List ℚ) : ℚ := xs.sum / xs.length

/-- Models `scipy.stats.linregress(x, y).slope`: the ordinary-least-squares
slope `Σ (xᵢ - x̄) * (yᵢ - ȳ) / Σ (xᵢ - x̄) ^ 2`.  When the denominator is
zero the `ℚ` convention `q / 0 = 0` applies. -/
def linregressSlope (x y : List ℚ) : ℚ :=
  (((x.zip y).map (fun p => (p.1 - mean x) * (p.2 - mean y))).sum) /
    ((x.map (fun t => (t - mean x) ^ 2)).sum)

/-- Source lines 7-16.  `series[:-1]` is `dropLast`; the regression is of
the differences on the lagged series, in that argument order
(`linregress(lagged_series, difference)`); `np.log(2)` is `Real.log 2`. -/
noncomputable def half_life_mean_reversion (series : List ℚ) : Except PyError ℝ :=
  if series.length ≤ 1 then .error (.smartError invalidInputMsg)
  else
    let difference := npDiff series
    let lagged_series := series.dropLast
    let slope := linregressSlope lagged_series difference
    if |slope| < npEps then .error (.smartError degenerateFitMsg)
    else .ok (-(Real.log 2) / (slope : ℝ))

/-- Result of the cointegration test routine named `coint` by source line
22: test statistic (`coint_res[0]`), p-value (`coint_res[1]`), and the
3-element critical-value table for the 1%, 5% and 10% levels
(`coint_res[2]`). -/
structure CointResult where
  coint_t : ℚ
  p_value : ℚ
  crit_values : ℚ × ℚ × ℚ

/-- The cointegration test is a black box: any pure function from the two
series to a `CointResult`. -/
def CointTest := List ℚ → List ℚ → CointResult

/-- A sample black-box cointegration test used only to evaluate the
pipeline on concrete inputs (statistic 0, p-value 1, all critical values
0). -/
def trivialCoint : CointTest := fun _ _ => ⟨0, 1, (0, 0, 0)⟩

/-- Models `sm.OLS(y, sm.add_constant(x)).fit().params`, source lines
28-29: for the design matrix `[constant column, x]`, the coefficient vector
is `[intercept, slope]` with `slope` the least-squares slope of `y` on `x`
and `intercept = ȳ - slope * x̄` (normal-equation solution; when `x` has
zero variance the `ℚ` convention `q / 0 = 0` gives slope `0`). -/
def sm_OLS_params (y x : List ℚ) : List ℚ :=
  [mean y - linregressSlope x y * mean x, linregressSlope x y]

/-- Source line 30: `hedge_ratio = model.params[1]`, the coefficient on
`series_2`. -/
def hedge_ratio_of (series_1 series_2 : List ℚ) : ℚ :=
  (sm_OLS_params series_1 series_2).getD 1 0

/-- Source line 31: `intercept = model.params[0]`, the constant term. -/
def intercept_of (series_1 series_2 : List ℚ) : ℚ :=
  (sm_OLS_params series_1 series_2).getD 0 0

/-- Source line 33: `spread = series_1 - (series_2 * hedge_ratio) -
intercept`, numpy elementwise arithmetic on equal-length arrays. -/
def spread_of (series_1 series_2 : List ℚ) : List ℚ :=
  series_1.zipWith
    (fun a b => a - b * hedge_ratio_of series_1 series_2 - intercept_of series_1 series_2)
    series_2

/-- Source lines 35-36: `t_check = coint_t < critical_value` and
`coint_flag = 1 if p_value < 0.05 and t_check else 0`, with
`critical_value = coint_res[2][1]`, the 5%-level entry (index 1) of the
critical-value table. -/
def coint_flag_of (r : CointResult) : ℤ :=
  if r.p_value < 0.05 ∧ r.coint_t < r.crit_values.2.1 then 1 else 0

/-- Source lines 18-37, with the unresolved global `coint` supplied as the
black-box parameter `ct`.  The two input series are coerced pointwise (the
`astype` coercion of lines 19-20 is the identity here since the series are
already numeric); the length guard models the numpy broadcast failure that
mismatched 1-D shapes raise in the elementwise arithmetic of line 33 (the
underlying statistical routines reject mismatched lengths as well).  Since
`ct` is pure, evaluating it before or after the OLS step is
behaviour-preserving, and any failure of `half_life_mean_reversion` on the
spread propagates unchanged. -/
noncomputable def calculate_cointegration (ct : CointTest) (series_1 series_2 : List ℚ) :
    Except PyError (ℤ × ℚ × ℝ) :=
  if series_1.length = series_2.length then
    match half_life_mean_reversion (spread_of series_1 series_2) with
    | .error e => .error e
    | .ok half_life =>
        .ok (coint_flag_of (ct series_1 series_2), hedge_ratio_of series_1 series_2, half_life)
  else .error (.valueError shapeMismatchMsg)

/-! ## The module's name environment (for the unresolved-globals claim) -/

/-- Name of the global `coint` referenced at source line 22. -/
def cointName : String := "coint"

/-- Name of the global `sm` referenced at source lines 28-29. -/
def smName : String := "sm"

/-- The `numpy` attribute `float` accessed at source line 19. -/
def floatAttr : String := "float"

/-- The names bound at module scope of `python_version.py`: the two import
lines bind `np` and `linregress`, and the three top-level statements bind
`SmartError`, `half_life_mean_reversion` and `calculate_cointegration`.
Nothing else is ever bound. -/
def moduleScopeNames : List String :=
  ["np", "linregress", "SmartError", "half_life_mean_reversion", "calculate_cointegration"]

/-- The global names the body of `calculate_cointegration` dereferences, in
source order of first use (lines 19, 22, 28, 34). -/
def calcCointGlobalRefs : List String :=
  ["np", cointName, smName, "half_life_mean_reversion"]

/-- Whether the `numpy` module exposes a `float` attribute: the alias was
deprecated in numpy 1.20 and removed in numpy 1.24, so on current numpy the
lookup of line 19 fails with `AttributeError`. -/
def numpyHasFloatAttr : Bool := false

/-- Source lines 18-37 executed under Python name resolution: line 19
evaluates `np.float` (an `AttributeError` on current numpy); were that
lookup to succeed, line 22 would dereference the unbound global `coint`
(`NameError`), and line 28 the unbound global `sm`.  The parameter `ct`
models what `coint` would denote were it bound. -/
noncomputable def calculate_cointegration_as_written (ct : CointTest)
    (series_1 series_2 : List ℚ) : Except PyError (ℤ × ℚ × ℝ) :=
  if numpyHasFloatAttr = false then .error (.attributeError floatAttr)
  else if cointName ∉ moduleScopeNames then .error (.nameError cointName)
  else if smName ∉ moduleScopeNames then .error (.nameError smName)
  else calculate_cointegration ct series_1 series_2

/-! ## Basic lemmas about the embedded operations -/

theorem npDiff_length (s : List ℚ) : (npDiff s).length = s.length - 1 := by
  match s with
  | [] => rfl
  | [_] => rfl
  | a :: b :: rest =>
      have ih := npDiff_length (b :: rest)
      simp [npDiff] at ih ⊢
      omega

theorem npDiff_getD (s : List ℚ) (i : ℕ) (h : i + 1 < s.length) :
    (npDiff s).getD i 0 = s.getD (i + 1) 0 - s.getD i 0 := by
  match s, i with
  | a :: b :: rest, 0 => simp [npDiff]
  | a :: b :: rest, i + 1 =>
      have ih := npDiff_getD (b :: rest) i (by simpa using h)
      simpa [npDiff] using ih

theorem dropLast_getD (s : List ℚ) (i : ℕ) (h : i + 1 < s.length) :
    s.dropLast.getD i 0 = s.getD i 0 := by
  have hlen : i < s.dropLast.length := by
    simp only [List.length_dropLast]; omega
  have h' : i < s.length := by omega
  rw [List.getD_eq_getElem _ _ hlen, List.getD_eq_getElem _ _ h']
  simp [List.getElem_dropLast]

theorem sum_map_add {α : Type} (l : List α) (f g : α → ℚ) :
    (l.map (fun t => f t + g t)).sum = (l.map f).sum + (l.map g).sum := by
  induction l with
  | nil => simp
  | cons a l ih => simp only [List.map_cons, List.sum_cons, ih]; ring

theorem sum_map_mul_left {α : Type} (l : List α) (c : ℚ) (f : α → ℚ) :
    (l.map (fun t => c * f t)).sum = c * (l.map f).sum := by
  induction l with
  | nil => simp
  | cons a l ih => simp only [List.map_cons, List.sum_cons, ih]; ring

theorem sum_map_sub {α : Type} (l : List α) (f g : α → ℚ) :
    (l.map (fun t => f t - g t)).sum = (l.map f).sum - (l.map g).sum := by
  induction l with
  | nil => simp
  | cons a l ih => simp only [List.map_cons, List.sum_cons, ih]; ring

theorem sum_map_sub_const {α : Type} (l : List α) (f : α → ℚ) (c : ℚ) :
    (l.map (fun t => f t - c)).sum = (l.map f).sum - l.length * c := by
  induction l with
  | nil => simp
  | cons a l ih => simp only [List.map_cons, List.sum_cons, ih, List.length_cons]
                   push_cast
                   ring

theorem sum_map_nonneg {α : Type} (l : List α) (f : α → ℚ) (h : ∀ a ∈ l, 0 ≤ f a) :
    0 ≤ (l.map f).sum := by
  induction l with
  | nil => simp
  | cons a l ih =>
      simp only [List.map_cons, List.sum_cons]
      have h1 := h a (by simp)
      have h2 := ih (fun b hb => h b (by simp [hb]))
      linarith

theorem sum_map_eq_zero {α : Type} (l : List α) (f : α → ℚ) (h : ∀ a ∈ l, f a = 0) :
    (l.map f).sum = 0 := by
  induction l with
  | nil => simp
  | cons a l ih =>
      simp only [List.map_cons, List.sum_cons, h a (by simp),
        ih (fun b hb => h b (by simp [hb])), add_zero]

theorem sum_map_sq_eq_zero {α : Type} (l : List α) (f : α → ℚ)
    (h : (l.map (fun t => f t ^ 2)).sum = 0) : ∀ a ∈ l, f a = 0 := by
  induction l with
  | nil => simp
  | cons a l ih =>
      simp only [List.map_cons, List.sum_cons] at h
      have h1 : (0 : ℚ) ≤ f a ^ 2 := sq_nonneg _
      have h2 : 0 ≤ (l.map (fun t => f t ^ 2)).sum :=
        sum_map_nonneg l _ (fun b _ => sq_nonneg _)
      have ha : f a ^ 2 = 0 := by linarith
      have hrest : (l.map (fun t => f t ^ 2)).sum = 0 := by linarith
      intro b hb
      rcases List.mem_cons.mp hb with rfl | hb
      · exact pow_eq_zero_iff (n := 2) (by norm_num) |>.mp ha
      · exact ih hrest b hb

theorem mean_const (l : List ℚ) (c : ℚ) (hl : l ≠ []) (h : ∀ v ∈ l, v = c) :
    mean l = c := by
  have hsum : l.sum = l.length * c := by
    induction l with
    | nil => simp
    | cons a l ih =>
        simp only [List.sum_cons, h a (by simp), List.length_cons]
        rcases eq_or_ne l [] with rfl | hne
        · simp
        · rw [ih hne (fun v hv => h v (by simp [hv]))]
          push_cast
          ring
  have hlen : (l.length : ℚ) ≠ 0 := by
    simpa using List.length_pos.mpr hl |>.ne'
  rw [mean, hsum, mul_comm, mul_div_assoc, div_self hlen, mul_one]

/-- If the dependent variable is constant the least-squares slope is zero
(each centered product vanishes). -/
theorem linregressSlope_const_y (x y : List ℚ) (c : ℚ) (hy : y ≠ [])
    (h : ∀ v ∈ y, v = c) : linregressSlope x y = 0 := by
  have hmean : mean y = c := mean_const y c hy h
  have hnum : (((x.zip y).map (fun p => (p.1 - mean x) * (p.2 - mean y))).sum) = 0 := by
    apply sum_map_eq_zero
    intro p hp
    have : p.2 = c := h p.2 (List.of_mem_zip hp).2
    rw [this, hmean, sub_self, mul_zero]
  rw [linregressSlope, hnum, zero_div]

theorem npDiff_mem_const (s : List ℚ) (c : ℚ)
    (h : ∀ i, i + 1 < s.length → s.getD (i + 1) 0 - s.getD i 0 = c) :
    ∀ v ∈ npDiff s, v = c := by
  match s with
  | [] => simp [npDiff]
  | [a] => simp [npDiff]
  | a :: b :: rest =>
      intro v hv
      simp only [npDiff, List.mem_cons] at hv
      rcases hv with rfl | hv
      · have h0 := h 0 (by simp)
        simpa using h0
      · refine npDiff_mem_const (b :: rest) c (fun i hi => ?_) v hv
        have hi' : (i + 1) + 1 < (a :: b :: rest).length := by
          simp only [List.length_cons] at hi ⊢
          omega
        have := h (i + 1) hi'
        simpa using this

/-! ## Branch lemmas for `half_life_mean_reversion` -/

theorem half_life_eq_error_short (s : List ℚ) (h : s.length ≤ 1) :
    half_life_mean_reversion s = .error InvalidInput := by
  unfold half_life_mean_reversion
  exact if_pos h

theorem half_life_eq_error_degen (s : List ℚ) (h1 : 1 < s.length)
    (h2 : |linregressSlope s.dropLast (npDiff s)| < npEps) :
    half_life_mean_reversion s = .error DegenerateFit := by
  unfold half_life_mean_reversion
  rw [if_neg (by omega)]
  exact if_pos h2

theorem half_life_eq_ok (s : List ℚ) (h1 : 1 < s.length)
    (h2 : npEps ≤ |linregressSlope s.dropLast (npDiff s)|) :
    half_life_mean_reversion s =
      .ok (-(Real.log 2) / ((linregressSlope s.dropLast (npDiff s) : ℚ) : ℝ)) := by
  unfold half_life_mean_reversion
  rw [if_neg (by omega)]
  exact if_neg (not_lt.mpr h2)

/-- A series whose consecutive differences are all the constant `c` has
least-squares slope zero for the difference-on-lag regression. -/
theorem slope_zero_of_const_diff (s : List ℚ) (c : ℚ) (h1 : 1 < s.length)
    (h : ∀ i, i + 1 < s.length → s.getD (i + 1) 0 - s.getD i 0 = c) :
    linregressSlope s.dropLast (npDiff s) = 0 := by
  have hne : npDiff s ≠ [] := by
    have := npDiff_length s
    intro hnil
    rw [hnil] at this
    simp at this
    omega
  exact linregressSlope_const_y s.dropLast (npDiff s) c hne (npDiff_mem_const s c h)

/-! ## Claims about `half_life_mean_reversion` -/

/-- C3: for every input series of length at most 1 (including the empty
series), `half_life_mean_reversion` fails with the `InvalidInput` error and
does not attempt the regression. -/
theorem half_life_short_series (s : List ℚ) (h : s.length ≤ 1) :
    half_life_mean_reversion s = .error InvalidInput := by
  unfold half_life_mean_reversion
  exact if_pos h

theorem half_life_short_series_witness :
    ([] : List ℚ).length ≤ 1 ∧ half_life_mean_reversion [] = .error InvalidInput :=
  ⟨by decide, half_life_short_series [] (by decide)⟩

/-- C2: for every input series of length N greater than 1 whose fitted
slope θ (the least-squares slope of the first differences on the lagged
series) satisfies `|θ| ≥ npEps`, `half_life_mean_reversion` computes the
first differences `d[i] = series[i+1] - series[i]` and lagged values
`lag[i] = series[i]` for `i` in `[0, N-2]`, fits the regression of `d` on
`lag`, and returns `-ln 2 / θ`. -/
theorem half_life_formula (s : List ℚ) (h1 : 1 < s.length)
    (h2 : npEps ≤ |linregressSlope s.dropLast (npDiff s)|) :
    (∀ i, i + 1 < s.length → (npDiff s).getD i 0 = s.getD (i + 1) 0 - s.getD i 0) ∧
    (∀ i, i + 1 < s.length → s.dropLast.getD i 0 = s.getD i 0) ∧
    half_life_mean_reversion s =
      .ok (-(Real.log 2) / ((linregressSlope s.dropLast (npDiff s) : ℚ) : ℝ)) :=
  ⟨fun i hi => npDiff_getD s i hi, fun i hi => dropLast_getD s i hi,
    half_life_eq_ok s h1 h2⟩

theorem half_life_formula_witness :
    1 < ([0, 1, 0, 1] : List ℚ).length ∧
    npEps ≤ |linregressSlope ([0, 1, 0, 1] : List ℚ).dropLast (npDiff [0, 1, 0, 1])| ∧
    half_life_mean_reversion [0, 1, 0, 1] =
      .ok (-(Real.log 2) /
        ((linregressSlope ([0, 1, 0, 1] : List ℚ).dropLast (npDiff [0, 1, 0, 1]) : ℚ) : ℝ)) := by
  have hs : linregressSlope ([0, 1, 0, 1] : List ℚ).dropLast (npDiff [0, 1, 0, 1]) = -2 := by
    norm_num [linregressSlope, mean, npDiff]
  have h2 : npEps ≤ |linregressSlope ([0, 1, 0, 1] : List ℚ).dropLast (npDiff [0, 1, 0, 1])| := by
    rw [hs]
    norm_num [npEps]
  exact ⟨by norm_num, h2, (half_life_formula [0, 1, 0, 1] (by norm_num) h2).2.2⟩

/-- C4: for every input series of length greater than 1, if the absolute
value of the fitted slope θ is smaller than machine epsilon,
`half_life_mean_reversion` fails with the `DegenerateFit` error; in
particular, every series whose consecutive differences are constant fails
with `DegenerateFit`. -/
theorem half_life_degenerate_slope :
    (∀ s : List ℚ, 1 < s.length →
        |linregressSlope s.dropLast (npDiff s)| < npEps →
        half_life_mean_reversion s = .error DegenerateFit) ∧
    (∀ (s : List ℚ) (c : ℚ), 1 < s.length →
        (∀ i, i + 1 < s.length → s.getD (i + 1) 0 - s.getD i 0 = c) →
        half_life_mean_reversion s = .error DegenerateFit) := by
  constructor
  · exact fun s h1 h2 => half_life_eq_error_degen s h1 h2
  · intro s c h1 hc
    apply half_life_eq_error_degen s h1
    rw [slope_zero_of_const_diff s c h1 hc]
    norm_num [npEps]

theorem half_life_degenerate_slope_witness :
    1 < ([0, 1, 2, 3] : List ℚ).length ∧
    half_life_mean_reversion [0, 1, 2, 3] = .error DegenerateFit := by
  refine ⟨by norm_num, half_life_degenerate_slope.2 [0, 1, 2, 3] 1 (by norm_num) ?_⟩
  intro i hi
  simp only [List.length_cons, List.length_nil] at hi
  have hi3 : i < 3 := by omega
  interval_cases i <;> norm_num

/-- C10: there are input series of length greater than 1 with fitted slope
θ positive and at least machine epsilon for which
`half_life_mean_reversion` returns the negative value `-ln 2 / θ < 0`: the
function never guards against a positive slope.  Witnessed by the series
`[0, 1, 3]`, whose fitted slope is `1`. -/
theorem half_life_negative_for_positive_slope :
    1 < ([0, 1, 3] : List ℚ).length ∧
    npEps ≤ linregressSlope ([0, 1, 3] : List ℚ).dropLast (npDiff [0, 1, 3]) ∧
    ∃ r : ℝ, half_life_mean_reversion [0, 1, 3] = .ok r ∧ r < 0 := by
  have hs : linregressSlope ([0, 1, 3] : List ℚ).dropLast (npDiff [0, 1, 3]) = 1 := by
    norm_num [linregressSlope, mean, npDiff]
  have h2 : npEps ≤ |linregressSlope ([0, 1, 3] : List ℚ).dropLast (npDiff [0, 1, 3])| := by
    rw [hs]
    norm_num [npEps]
  refine ⟨by norm_num, by rw [hs]; norm_num [npEps], ?_⟩
  refine ⟨-(Real.log 2) /
    ((linregressSlope ([0, 1, 3] : List ℚ).dropLast (npDiff [0, 1, 3]) : ℚ) : ℝ),
    half_life_eq_ok [0, 1, 3] (by norm_num) h2, ?_⟩
  rw [hs]
  push_cast
  simp only [div_one]
  simpa using Real.log_pos (by norm_num)

/-! ## Claims about the cointegration pipeline -/

/-- C1: the body of `calculate_cointegration` references the globals
`coint` and `sm`, neither of which the module ever imports or defines, and
line 19 accesses `np.float`, absent from current numpy; consequently every
call fails before producing a result — no call returns the
`(flag, hedge_ratio, half_life)` triple. -/
theorem calc_coint_unresolved_names :
    cointName ∉ moduleScopeNames ∧ smName ∉ moduleScopeNames ∧
    cointName ∈ calcCointGlobalRefs ∧ smName ∈ calcCointGlobalRefs ∧
    numpyHasFloatAttr = false ∧
    ∀ (ct : CointTest) (s1 s2 : List ℚ),
      calculate_cointegration_as_written ct s1 s2 = .error (.attributeError floatAttr) := by
  refine ⟨by decide, by decide, by decide, by decide, rfl, ?_⟩
  intro ct s1 s2
  rfl

/-- Success and error branches of the pipeline once the two series have
equal length. -/
theorem calc_coint_error_branch (ct : CointTest) (s1 s2 : List ℚ)
    (h : s1.length = s2.length) (e : PyError)
    (he : half_life_mean_reversion (spread_of s1 s2) = .error e) :
    calculate_cointegration ct s1 s2 = .error e := by
  unfold calculate_cointegration
  rw [if_pos h, he]

theorem calc_coint_ok_branch (ct : CointTest) (s1 s2 : List ℚ)
    (h : s1.length = s2.length) (hl : ℝ)
    (hh : half_life_mean_reversion (spread_of s1 s2) = .ok hl) :
    calculate_cointegration ct s1 s2 =
      .ok (coint_flag_of (ct s1 s2), hedge_ratio_of s1 s2, hl) := by
  unfold calculate_cointegration
  rw [if_pos h, hh]

theorem spread_of_getD (s1 s2 : List ℚ) (h : s1.length = s2.length)
    (i : ℕ) (hi : i < s1.length) :
    (spread_of s1 s2).getD i 0 =
      s1.getD i 0 - hedge_ratio_of s1 s2 * s2.getD i 0 - intercept_of s1 s2 := by
  have hsp : (spread_of s1 s2).length = s1.length := by
    simp [spread_of, h]
  have hi2 : i < s2.length := by omega
  have hisp : i < (spread_of s1 s2).length := by omega
  rw [List.getD_eq_getElem _ _ hisp, List.getD_eq_getElem _ _ hi,
    List.getD_eq_getElem _ _ hi2]
  simp only [spread_of, List.getElem_zipWith]
  ring

/-- C7: once the pipeline reaches the spread step, the spread is the
pointwise residual `series_1[i] - hedge_ratio * series_2[i] - intercept`,
the half-life in any successful result is exactly
`half_life_mean_reversion` of that spread, and a failure of the inner call
propagates to the caller unchanged, with no partial triple returned. -/
theorem spread_half_life_propagation (ct : CointTest) (s1 s2 : List ℚ)
    (h : s1.length = s2.length) :
    (∀ i, i < s1.length → (spread_of s1 s2).getD i 0 =
        s1.getD i 0 - hedge_ratio_of s1 s2 * s2.getD i 0 - intercept_of s1 s2) ∧
    (∀ e, half_life_mean_reversion (spread_of s1 s2) = .error e →
        calculate_cointegration ct s1 s2 = .error e) ∧
    (∀ hl : ℝ, half_life_mean_reversion (spread_of s1 s2) = .ok hl →
        calculate_cointegration ct s1 s2 =
          .ok (coint_flag_of (ct s1 s2), hedge_ratio_of s1 s2, hl)) :=
  ⟨fun i hi => spread_of_getD s1 s2 h i hi,
    fun e he => calc_coint_error_branch ct s1 s2 h e he,
    fun hl hh => calc_coint_ok_branch ct s1 s2 h hl hh⟩

theorem spread_half_life_propagation_witness :
    (∀ i, i < ([4] : List ℚ).length → (spread_of [4] [4]).getD i 0 =
        ([4] : List ℚ).getD i 0 - hedge_ratio_of [4] [4] * ([4] : List ℚ).getD i 0 -
          intercept_of [4] [4]) ∧
    (∀ e, half_life_mean_reversion (spread_of [4] [4]) = .error e →
        calculate_cointegration trivialCoint [4] [4] = .error e) ∧
    (∀ hl : ℝ, half_life_mean_reversion (spread_of [4] [4]) = .ok hl →
        calculate_cointegration trivialCoint [4] [4] =
          .ok (coint_flag_of (trivialCoint [4] [4]), hedge_ratio_of [4] [4], hl)) :=
  spread_half_life_propagation trivialCoint [4] [4] rfl

/-- C9: `calculate_cointegration` is deterministic — two calls on identical
inputs yield identical outcomes (results or failures), the computation
holding no state between calls. -/
theorem calc_coint_deterministic (ct : CointTest) (s1 s2 : List ℚ)
    (r r' : Except PyError (ℤ × ℚ × ℝ))
    (h : calculate_cointegration ct s1 s2 = r)
    (h' : calculate_cointegration ct s1 s2 = r') : r = r' := by
  rw [← h, ← h']

theorem calc_coint_deterministic_witness :
    (Except.error InvalidInput : Except PyError (ℤ × ℚ × ℝ)) = .error InvalidInput := by
  have hspread : spread_of [4] [4] = [0] := by
    norm_num [spread_of, hedge_ratio_of, intercept_of, sm_OLS_params, linregressSlope, mean]
  have heval : calculate_cointegration trivialCoint [4] [4] = .error InvalidInput :=
    calc_coint_error_branch trivialCoint [4] [4] rfl InvalidInput
      (by rw [hspread]; exact half_life_eq_error_short [0] (by norm_num))
  exact calc_coint_deterministic trivialCoint [4] [4] _ _ heval heval

/-! ## The OLS step really is a least-squares fit -/

/-- Residual sum of squares of the affine fit `y ≈ a + b * x`, over the
pointwise pairs of the two series. -/
def ssr (x y : List ℚ) (a b : ℚ) : ℚ :=
  ((x.zip y).map (fun p => (p.2 - a - b * p.1) ^ 2)).sum

theorem sum_map_fst_zip (x y : List ℚ) (h : x.length ≤ y.length) (f : ℚ → ℚ) :
    ((x.zip y).map (fun p => f p.1)).sum = (x.map f).sum := by
  have hmap : (x.zip y).map (fun p => f p.1) = x.map f := by
    rw [show (fun p : ℚ × ℚ => f p.1) = f ∘ Prod.fst from rfl, ← List.map_map,
      List.map_fst_zip x y h]
  rw [hmap]

theorem sum_map_snd_zip (x y : List ℚ) (h : y.length ≤ x.length) (f : ℚ → ℚ) :
    ((x.zip y).map (fun p => f p.2)).sum = (y.map f).sum := by
  have hmap : (x.zip y).map (fun p => f p.2) = y.map f := by
    rw [show (fun p : ℚ × ℚ => f p.2) = f ∘ Prod.snd from rfl, ← List.map_map,
      List.map_snd_zip x y h]
  rw [hmap]

theorem sum_sub_mean (l : List ℚ) : (l.map (fun t => t - mean l)).sum = 0 := by
  have hc := sum_map_sub_const l (fun t => t) (mean l)
  simp only [List.map_id_fun', id] at hc
  rcases eq_or_ne l [] with rfl | hne
  · simp
  · have hlen : (l.length : ℚ) ≠ 0 := by
      simpa using List.length_pos.mpr hne |>.ne'
    rw [show l.map (fun t => t - mean l) = l.map (fun t => (fun t => t) t - mean l) from rfl, hc]
    rw [mean]
    field_simp

/-- First normal equation: the residuals of the fitted coefficients sum to
zero. -/
theorem ols_normal_eq_1 (y x : List ℚ) (h : x.length = y.length) :
    ((x.zip y).map (fun p =>
        p.2 - (mean y - linregressSlope x y * mean x) - linregressSlope x y * p.1)).sum = 0 := by
  have hfun : (fun p : ℚ × ℚ =>
      p.2 - (mean y - linregressSlope x y * mean x) - linregressSlope x y * p.1) =
      fun p : ℚ × ℚ =>
        (p.2 - mean y) - linregressSlope x y * (p.1 - mean x) := by
    funext p
    ring
  rw [hfun, sum_map_sub (x.zip y) (fun p => p.2 - mean y)
      (fun p => linregressSlope x y * (p.1 - mean x)),
    sum_map_mul_left (x.zip y) (linregressSlope x y) (fun p => p.1 - mean x),
    sum_map_snd_zip x y (le_of_eq h.symm) (fun t => t - mean y),
    sum_map_fst_zip x y (le_of_eq h) (fun t => t - mean x),
    sum_sub_mean, sum_sub_mean, mul_zero, sub_zero]

/-- Second normal equation: the residuals are orthogonal to the regressor. -/
theorem ols_normal_eq_2 (y x : List ℚ) (h : x.length = y.length) :
    ((x.zip y).map (fun p =>
        (p.2 - (mean y - linregressSlope x y * mean x) - linregressSlope x y * p.1) * p.1)).sum
      = 0 := by
  have hfun : (fun p : ℚ × ℚ =>
      (p.2 - (mean y - linregressSlope x y * mean x) - linregressSlope x y * p.1) * p.1) =
      fun p : ℚ × ℚ =>
        ((p.1 - mean x) * (p.2 - mean y) - linregressSlope x y * (p.1 - mean x) ^ 2) +
          mean x * (p.2 - (mean y - linregressSlope x y * mean x) - linregressSlope x y * p.1) := by
    funext p
    ring
  rw [hfun, sum_map_add (x.zip y) _ _,
    sum_map_mul_left (x.zip y) (mean x)
      (fun p => p.2 - (mean y - linregressSlope x y * mean x) - linregressSlope x y * p.1),
    ols_normal_eq_1 y x h, mul_zero, add_zero,
    sum_map_sub (x.zip y) (fun p => (p.1 - mean x) * (p.2 - mean y))
      (fun p => linregressSlope x y * (p.1 - mean x) ^ 2),
    sum_map_mul_left (x.zip y) (linregressSlope x y) (fun p => (p.1 - mean x) ^ 2),
    sum_map_fst_zip x y (le_of_eq h) (fun t => (t - mean x) ^ 2)]
  rcases eq_or_ne ((x.map (fun t => (t - mean x) ^ 2)).sum) 0 with hden | hden
  · have hzero : ∀ t ∈ x, t - mean x = 0 := sum_map_sq_eq_zero x (fun t => t - mean x) hden
    have hnum : (((x.zip y).map (fun p => (p.1 - mean x) * (p.2 - mean y))).sum) = 0 := by
      apply sum_map_eq_zero
      intro p hp
      rw [hzero p.1 (List.of_mem_zip hp).1, zero_mul]
    rw [hnum, hden, mul_zero, sub_zero]
  · rw [linregressSlope, div_mul_cancel₀ _ hden, sub_self]

/-- The normal-equation solution minimizes the residual sum of squares:
`sm_OLS_params` is a genuine ordinary-least-squares fit. -/
theorem ols_optimal (y x : List ℚ) (h : x.length = y.length) (a b : ℚ) :
    ssr x y (mean y - linregressSlope x y * mean x) (linregressSlope x y) ≤ ssr x y a b := by
  set bh := linregressSlope x y with hbh
  set ah := mean y - bh * mean x with hah
  have hfun : (fun p : ℚ × ℚ => (p.2 - a - b * p.1) ^ 2) =
      fun p : ℚ × ℚ =>
        (p.2 - ah - bh * p.1) ^ 2 +
          ((2 * (ah - a)) * (p.2 - ah - bh * p.1) +
            ((2 * (bh - b)) * ((p.2 - ah - bh * p.1) * p.1) +
              ((ah - a) + (bh - b) * p.1) ^ 2)) := by
    funext p
    ring
  have hexp : ssr x y a b =
      ssr x y ah bh +
        ((2 * (ah - a)) * ((x.zip y).map (fun p => p.2 - ah - bh * p.1)).sum +
          ((2 * (bh - b)) * ((x.zip y).map (fun p => (p.2 - ah - bh * p.1) * p.1)).sum +
            ((x.zip y).map (fun p => ((ah - a) + (bh - b) * p.1) ^ 2)).sum)) := by
    rw [ssr, hfun, sum_map_add (x.zip y) _ _, sum_map_add (x.zip y) _ _,
      sum_map_add (x.zip y) _ _,
      sum_map_mul_left (x.zip y) (2 * (ah - a)) (fun p => p.2 - ah - bh * p.1),
      sum_map_mul_left (x.zip y) (2 * (bh - b)) (fun p => (p.2 - ah - bh * p.1) * p.1)]
    rfl
  have hne1 := ols_normal_eq_1 y x h
  have hne2 := ols_normal_eq_2 y x h
  rw [← hbh, ← hah] at hne1 hne2
  rw [hexp, hne1, hne2, mul_zero, mul_zero, zero_add]
  have hnn : 0 ≤ ((x.zip y).map (fun p => ((ah - a) + (bh - b) * p.1) ^ 2)).sum :=
    sum_map_nonneg (x.zip y) _ (fun p _ => sq_nonneg _)
  linarith

theorem calc_coint_ok_inv (ct : CointTest) (s1 s2 : List ℚ) (flag : ℤ) (hr : ℚ) (hl : ℝ)
    (h : calculate_cointegration ct s1 s2 = .ok (flag, hr, hl)) :
    flag = coint_flag_of (ct s1 s2) ∧ hr = hedge_ratio_of s1 s2 ∧
      half_life_mean_reversion (spread_of s1 s2) = .ok hl := by
  unfold calculate_cointegration at h
  by_cases hlen : s1.length = s2.length
  · rw [if_pos hlen] at h
    cases hhl : half_life_mean_reversion (spread_of s1 s2) with
    | error e => rw [hhl] at h; simp at h
    | ok v =>
        rw [hhl] at h
        simp only [Except.ok.injEq, Prod.mk.injEq] at h
        obtain ⟨h1, h2, h3⟩ := h
        refine ⟨h1.symm, h2.symm, ?_⟩
        rw [← h3]
  · rw [if_neg hlen] at h
    simp at h

/-- Shared concrete evaluation: a successful call of the pipeline on the
pair `series_1 = [0, 0, 3]`, `series_2 = [0, 1, 2]` (hedge ratio `3/2`,
spread slope `-2`, flag `0` under the sample test result). -/
theorem eval_success_example :
    calculate_cointegration trivialCoint [0, 0, 3] [0, 1, 2] =
      .ok (0, 3 / 2, -(Real.log 2) / ((-2 : ℚ) : ℝ)) := by
  have hspread : spread_of [0, 0, 3] [0, 1, 2] = [1 / 2, -1, 1 / 2] := by
    norm_num [spread_of, hedge_ratio_of, intercept_of, sm_OLS_params, linregressSlope, mean]
  have hslope : linregressSlope ([1 / 2, -1, 1 / 2] : List ℚ).dropLast
      (npDiff [1 / 2, -1, 1 / 2]) = -2 := by
    norm_num [linregressSlope, mean, npDiff]
  have hhl : half_life_mean_reversion (spread_of [0, 0, 3] [0, 1, 2]) =
      .ok (-(Real.log 2) / ((-2 : ℚ) : ℝ)) := by
    rw [hspread]
    have hok := half_life_eq_ok [1 / 2, -1, 1 / 2] (by norm_num)
      (by rw [hslope]; norm_num [npEps])
    rw [hslope] at hok
    exact hok
  have heval := calc_coint_ok_branch trivialCoint [0, 0, 3] [0, 1, 2] rfl
    (-(Real.log 2) / ((-2 : ℚ) : ℝ)) hhl
  have hflag : coint_flag_of (trivialCoint [0, 0, 3] [0, 1, 2]) = 0 := by
    norm_num [trivialCoint, coint_flag_of]
  have hhedge : hedge_ratio_of [0, 0, 3] [0, 1, 2] = 3 / 2 := by
    norm_num [hedge_ratio_of, sm_OLS_params, linregressSlope, mean]
  rw [hflag, hhedge] at heval
  exact heval

/-- C5: in every successful call, the returned flag is `1` iff both
`p_value < 0.05` and `coint_t` is below the critical value at the 5% level
(index 1 of the 3-element critical-value table); otherwise it is `0`, so
the flag is always `0` or `1`. -/
theorem coint_flag_iff (ct : CointTest) (s1 s2 : List ℚ) (flag : ℤ) (hr : ℚ) (hl : ℝ)
    (h : calculate_cointegration ct s1 s2 = .ok (flag, hr, hl)) :
    (flag = 1 ↔
      (ct s1 s2).p_value < 0.05 ∧ (ct s1 s2).coint_t < (ct s1 s2).crit_values.2.1) ∧
    (flag = 0 ∨ flag = 1) := by
  obtain ⟨hf, -, -⟩ := calc_coint_ok_inv ct s1 s2 flag hr hl h
  rw [hf]
  unfold coint_flag_of
  by_cases hc : (ct s1 s2).p_value < 0.05 ∧ (ct s1 s2).coint_t < (ct s1 s2).crit_values.2.1
  · rw [if_pos hc]
    exact ⟨⟨fun _ => hc, fun _ => rfl⟩, Or.inr rfl⟩
  · rw [if_neg hc]
    exact ⟨⟨fun h01 => absurd h01 (by norm_num), fun hcc => absurd hcc hc⟩, Or.inl rfl⟩

theorem coint_flag_iff_witness :
    ((0 : ℤ) = 1 ↔
      (trivialCoint [0, 0, 3] [0, 1, 2]).p_value < 0.05 ∧
        (trivialCoint [0, 0, 3] [0, 1, 2]).coint_t <
          (trivialCoint [0, 0, 3] [0, 1, 2]).crit_values.2.1) ∧
    ((0 : ℤ) = 0 ∨ (0 : ℤ) = 1) :=
  coint_flag_iff trivialCoint [0, 0, 3] [0, 1, 2] 0 (3 / 2)
    (-(Real.log 2) / ((-2 : ℚ) : ℝ)) eval_success_example

/-- C6: in every successful call the returned hedge ratio is the second
entry (the coefficient on `series_2`) of the OLS coefficient vector
`[intercept, slope]` for `series_1` on `series_2` augmented with a
constant, whose first entry is the constant term; and that coefficient
vector is a genuine ordinary-least-squares fit — it minimizes the residual
sum of squares over all affine fits. -/
theorem hedge_ratio_is_ols_coeff :
    (∀ (ct : CointTest) (s1 s2 : List ℚ) (flag : ℤ) (hr : ℚ) (hl : ℝ),
        calculate_cointegration ct s1 s2 = .ok (flag, hr, hl) →
        hr = (sm_OLS_params s1 s2).getD 1 0) ∧
    (∀ s1 s2 : List ℚ, s1.length = s2.length → ∀ a b : ℚ,
        ssr s2 s1 ((sm_OLS_params s1 s2).getD 0 0) ((sm_OLS_params s1 s2).getD 1 0) ≤
          ssr s2 s1 a b) := by
  constructor
  · intro ct s1 s2 flag hr hl h
    exact (calc_coint_ok_inv ct s1 s2 flag hr hl h).2.1
  · intro s1 s2 hlen a b
    have h0 : (sm_OLS_params s1 s2).getD 0 0 = mean s1 - linregressSlope s2 s1 * mean s2 := rfl
    have h1 : (sm_OLS_params s1 s2).getD 1 0 = linregressSlope s2 s1 := rfl
    rw [h0, h1]
    exact ols_optimal s1 s2 hlen.symm a b

theorem hedge_ratio_is_ols_coeff_witness :
    ((3 / 2 : ℚ) = (sm_OLS_params [0, 0, 3] [0, 1, 2]).getD 1 0) ∧
    ssr [0, 1, 2] [0, 0, 3] ((sm_OLS_params [0, 0, 3] [0, 1, 2]).getD 0 0)
        ((sm_OLS_params [0, 0, 3] [0, 1, 2]).getD 1 0) ≤ ssr [0, 1, 2] [0, 0, 3] 0 0 :=
  ⟨hedge_ratio_is_ols_coeff.1 trivialCoint [0, 0, 3] [0, 1, 2] 0 (3 / 2)
      (-(Real.log 2) / ((-2 : ℚ) : ℝ)) eval_success_example,
    hedge_ratio_is_ols_coeff.2 [0, 0, 3] [0, 1, 2] rfl 0 0⟩

/-! ## Identical input series -/

theorem zip_self_eq_map (l : List ℚ) : l.zip l = l.map (fun a => (a, a)) := by
  rw [List.zip_eq_zipWith, List.zipWith_same]

/-- For a non-constant series, regressing the series on itself gives slope
exactly 1. -/
theorem linregressSlope_self (s : List ℚ) (u v : ℚ) (hu : u ∈ s) (hv : v ∈ s)
    (huv : u ≠ v) : linregressSlope s s = 1 := by
  have hden : (s.map (fun t => (t - mean s) ^ 2)).sum ≠ 0 := by
    intro h0
    have hall := sum_map_sq_eq_zero s (fun t => t - mean s) h0
    have hum : u - mean s = 0 := hall u hu
    have hvm : v - mean s = 0 := hall v hv
    exact huv (by linarith)
  have hcomp : ((fun p : ℚ × ℚ => (p.1 - mean s) * (p.2 - mean s)) ∘ fun a : ℚ => (a, a)) =
      fun t : ℚ => (t - mean s) ^ 2 := by
    funext t
    simp [pow_two]
  have hnum : ((s.zip s).map (fun p => (p.1 - mean s) * (p.2 - mean s))).sum =
      (s.map (fun t => (t - mean s) ^ 2)).sum := by
    rw [zip_self_eq_map, List.map_map, hcomp]
  rw [linregressSlope, hnum, div_self hden]

/-- C8 counterexample: for the constant pair `series_1 = series_2 = [4, 4]`
the OLS step does not produce hedge ratio 1 and intercept 0 (the design
matrix is singular; the embedded normal-equation solution gives hedge ratio
`0` and intercept `4`), refuting the claim as stated for arbitrary
equal-length identical series. -/
theorem hedge_ratio_constant_series_ne_one :
    ¬(hedge_ratio_of [4, 4] [4, 4] = 1 ∧ intercept_of [4, 4] [4, 4] = 0) := by
  have hh : hedge_ratio_of [4, 4] [4, 4] = 0 := by
    norm_num [hedge_ratio_of, sm_OLS_params, linregressSlope, mean]
  intro hcl
  rw [hh] at hcl
  exact absurd hcl.1 (by norm_num)

/-- C8 (amended): for every pair of equal-length series with
`series_2 = series_1` where the series takes at least two distinct values
(so the OLS design is non-singular), the OLS step yields hedge ratio
exactly 1 and intercept exactly 0, and the call fails with `DegenerateFit`
in `half_life_mean_reversion`, the spread being identically zero. -/
theorem identical_series_degenerate (s : List ℚ) (u v : ℚ) (hu : u ∈ s) (hv : v ∈ s)
    (huv : u ≠ v) :
    hedge_ratio_of s s = 1 ∧ intercept_of s s = 0 ∧
    ∀ ct : CointTest, calculate_cointegration ct s s = .error DegenerateFit := by
  have hslope : linregressSlope s s = 1 := linregressSlope_self s u v hu hv huv
  have hh : hedge_ratio_of s s = 1 := by
    show (sm_OLS_params s s).getD 1 0 = 1
    simp [sm_OLS_params, hslope]
  have hi : intercept_of s s = 0 := by
    show (sm_OLS_params s s).getD 0 0 = 0
    simp [sm_OLS_params, hslope]
  have hlen : 1 < s.length := by
    rcases s with _ | ⟨a, _ | ⟨b, rest⟩⟩
    · exact absurd hu (by simp)
    · simp only [List.mem_singleton] at hu hv
      exact absurd (hu.trans hv.symm) huv
    · simp
  have hspread : spread_of s s = s.map (fun t => t - t * hedge_ratio_of s s - intercept_of s s) := by
    rw [spread_of, List.zipWith_same]
  have hspread0 : ∀ w ∈ spread_of s s, w = 0 := by
    intro w hw
    rw [hspread] at hw
    obtain ⟨t, ht, rfl⟩ := List.mem_map.mp hw
    rw [hh, hi]
    ring
  have hsplen : (spread_of s s).length = s.length := by
    rw [hspread, List.length_map]
  have hconst : ∀ i, i + 1 < (spread_of s s).length →
      (spread_of s s).getD (i + 1) 0 - (spread_of s s).getD i 0 = 0 := by
    intro i hilt
    have h1 : (spread_of s s).getD (i + 1) 0 = 0 := by
      rw [List.getD_eq_getElem _ _ hilt]
      exact hspread0 _ (List.getElem_mem hilt)
    have h2 : (spread_of s s).getD i 0 = 0 := by
      have hi2 : i < (spread_of s s).length := by omega
      rw [List.getD_eq_getElem _ _ hi2]
      exact hspread0 _ (List.getElem_mem hi2)
    rw [h1, h2, sub_zero]
  have hlensp : 1 < (spread_of s s).length := by omega
  have hdeg : half_life_mean_reversion (spread_of s s) = .error DegenerateFit := by
    apply half_life_eq_error_degen _ hlensp
    rw [slope_zero_of_const_diff (spread_of s s) 0 hlensp hconst]
    norm_num [npEps]
  exact ⟨hh, hi, fun ct => calc_coint_error_branch ct s s rfl DegenerateFit hdeg⟩

theorem identical_series_degenerate_witness :
    hedge_ratio_of [0, 1] [0, 1] = 1 ∧ intercept_of [0, 1] [0, 1] = 0 ∧
    ∀ ct : CointTest, calculate_cointegration ct [0, 1] [0, 1] = .error DegenerateFit :=
  identical_series_degenerate [0, 1] 0 1 (by norm_num) (by norm_num) (by norm_num)
